import Mathlib

/-!
Verification of the external-memory key-value collator
(`include/Key_Value_Collator.hpp`, `include/Key_Value_Iterator.hpp`).

The development shallowly embeds the mapping stage (partition buffers and
partition files, hash routing, flush, close), the collation stage (per-file
std::sort rewrite), the buffer pool drain of the mapper loop, and the
key-value iterator state machine, and proves the specified properties.

Keys and values are embedded as natural numbers (`main.cpp` instantiates the
templates at `uint32_t` keys and `size_t` values); the caller-supplied hasher
is a parameter `H : Nat → Nat`.  Partition files on disk are embedded as
lists of pairs indexed by partition id; the file path `<work_pref>.<p>.part`
is abstracted to the index `p`.  The pair-count threshold
`partition_buf_elem_th = partition_buf_mem / sizeof(key_val_pair_t)` and the
iterator read-buffer capacity `buf_sz` depend on `sizeof(key_val_pair_t)`,
so both are parameters (`T`, `B`) throughout.
-/

set_option maxRecDepth 8192

namespace KVCollator

/-- A key-value pair, `key_val_pair_t = std::pair<T_key_, T_val_>`. -/
abbrev Pair : Type := Nat × Nat

/-- The number of partitions for the keys: `partition_count = (1 << 9)`. -/
def partition_count : Nat := 2 ^ 9

/-- State of the mapping stage of `Key_Value_Collator`: the in-memory
partition buffers (`partition_buf`) and the on-disk partition files
(`partition_file`), each indexed by partition id. -/
structure MapState where
  pbuf : Nat → List Pair
  files : Nat → List Pair

/-- State after construction of the collator: every partition buffer empty,
every partition file created empty (binary-truncate mode). -/
def initState : MapState := { pbuf := fun _ => [], files := fun _ => [] }

/-- Partition id of a key: `hash(key) & (partition_count - 1)`
(`get_partition_id`). -/
def get_partition_id (H : Nat → Nat) (key : Nat) : Nat :=
  H key &&& (partition_count - 1)

/-- Flushing partition `p_id` (`flush`): append the in-memory buffer contents
of the partition to its file and clear the buffer. -/
def flush (s : MapState) (p_id : Nat) : MapState :=
  { pbuf := Function.update s.pbuf p_id [],
    files := Function.update s.files p_id (s.files p_id ++ s.pbuf p_id) }

/-- Routing of one pair (loop body of `map_buffer`): append the pair to the
partition buffer selected by `get_partition_id`; if that buffer's length
reaches the threshold `T` (`partition_buf_elem_th`), flush the partition. -/
def routePair (H : Nat → Nat) (T : Nat) (s : MapState) (kv : Pair) : MapState :=
  let p_id := get_partition_id H kv.1
  let s1 : MapState := { s with pbuf := Function.update s.pbuf p_id (s.pbuf p_id ++ [kv]) }
  if (s1.pbuf p_id).length = T then flush s1 p_id else s1

/-- Processing of one full staging buffer by the mapper (`map_buffer`). -/
def map_buffer (H : Nat → Nat) (T : Nat) (s : MapState) (buf : List Pair) : MapState :=
  buf.foldl (routePair H T) s

/-- The mapper loop (`map`): the deposited staging buffers are drained and
routed one at a time; `bufs` lists the drained buffers in the order the
mapper fetched them. -/
def mapAll (H : Nat → Nat) (T : Nat) (bufs : List (List Pair)) : MapState :=
  bufs.foldl (map_buffer H T) initState

/-- Closing the deposit stream after the mapper has joined
(`close_deposit_stream`): for each partition in turn, flush the in-memory
buffer if it is non-empty, then release the buffer and close the file.  Each
loop iteration touches only its own partition, so the result is pointwise. -/
def close_deposit_stream (s : MapState) : MapState :=
  { pbuf := fun _ => [],
    files := fun p_id =>
      if (s.pbuf p_id).isEmpty then s.files p_id else s.files p_id ++ s.pbuf p_id }

/-- The routed partition id is always below `partition_count`. -/
theorem get_partition_id_lt (H : Nat → Nat) (key : Nat) :
    get_partition_id H key < partition_count := by
  have h : get_partition_id H key = H key % 2 ^ 9 := by
    simpa [get_partition_id, partition_count] using
      Nat.and_pow_two_sub_one_eq_mod (H key) 9
  rw [h, partition_count]
  exact Nat.mod_lt _ (by norm_num)

/-- Every pair sitting in partition buffer or partition file `p` of a
reachable mapping state was routed there by the hash of its key. -/
def PartitionConsistent (H : Nat → Nat) (s : MapState) : Prop :=
  ∀ p kv, kv ∈ s.pbuf p ∨ kv ∈ s.files p → get_partition_id H kv.1 = p

theorem partitionConsistent_init (H : Nat → Nat) : PartitionConsistent H initState := by
  intro p kv hkv
  rcases hkv with h | h <;> simp [initState] at h

/-- A pair found in a partition slot after routing one pair was either
already there or is the routed pair landing in its hash partition. -/
theorem mem_routePair (H : Nat → Nat) (T : Nat) (s : MapState) (kv kv' : Pair) (p : Nat)
    (h : kv' ∈ (routePair H T s kv).pbuf p ∨ kv' ∈ (routePair H T s kv).files p) :
    (kv' ∈ s.pbuf p ∨ kv' ∈ s.files p) ∨ (kv' = kv ∧ p = get_partition_id H kv.1) := by
  simp only [routePair, flush] at h
  split at h
  · by_cases hp : p = get_partition_id H kv.1
    · subst hp
      simp [Function.update_same] at h
      tauto
    · simp [Function.update_noteq hp] at h
      tauto
  · by_cases hp : p = get_partition_id H kv.1
    · subst hp
      simp [Function.update_same] at h
      tauto
    · simp [Function.update_noteq hp] at h
      tauto

theorem partitionConsistent_routePair (H : Nat → Nat) (T : Nat) (s : MapState)
    (kv : Pair) (hs : PartitionConsistent H s) :
    PartitionConsistent H (routePair H T s kv) := by
  intro p kv' hkv'
  rcases mem_routePair H T s kv kv' p hkv' with h | ⟨rfl, rfl⟩
  · exact hs _ _ h
  · rfl

theorem partitionConsistent_map_buffer (H : Nat → Nat) (T : Nat) (s : MapState)
    (buf : List Pair) (hs : PartitionConsistent H s) :
    PartitionConsistent H (map_buffer H T s buf) := by
  induction buf generalizing s with
  | nil => exact hs
  | cons kv rest ih =>
      exact ih _ (partitionConsistent_routePair H T s kv hs)

theorem partitionConsistent_mapAll (H : Nat → Nat) (T : Nat)
    (bufs : List (List Pair)) : PartitionConsistent H (mapAll H T bufs) := by
  rw [mapAll]
  have h : ∀ s, PartitionConsistent H s →
      PartitionConsistent H (bufs.foldl (map_buffer H T) s) := by
    induction bufs with
    | nil => exact fun s hs => hs
    | cons b rest ih =>
        exact fun s hs => ih _ (partitionConsistent_map_buffer H T s b hs)
  exact h initState (partitionConsistent_init H)

/-- C2.  Partitioning correctness: the mapper routes each deposited pair to
partition `H(key) AND (partition_count - 1)` with `partition_count = 512`, so
every pair found in partition file `p` after the deposit stream is closed
satisfies `H(key) AND (partition_count - 1) = p`. -/
theorem partition_routing_correct (H : Nat → Nat) (T : Nat)
    (bufs : List (List Pair)) (p : Nat) (kv : Pair)
    (hmem : kv ∈ (close_deposit_stream (mapAll H T bufs)).files p) :
    get_partition_id H kv.1 = p ∧ partition_count = 512 := by
  refine ⟨?_, rfl⟩
  have hc := partitionConsistent_mapAll H T bufs
  rw [close_deposit_stream] at hmem
  simp only at hmem
  by_cases he : ((mapAll H T bufs).pbuf p).isEmpty
  · rw [if_pos he] at hmem
    exact hc _ _ (Or.inr hmem)
  · rw [if_neg he] at hmem
    rcases List.mem_append.1 hmem with h | h
    · exact hc _ _ (Or.inr h)
    · exact hc _ _ (Or.inl h)

/-- Witness for C2 at a concrete input: the identity hasher routes the single
deposited pair `(42, 7)` to partition file 42. -/
theorem partition_routing_correct_witness :
    (42, 7) ∈ (close_deposit_stream (mapAll (fun k => k) 100 [[(42, 7)]])).files 42 ∧
      (get_partition_id (fun k => k) 42 = 42 ∧ partition_count = 512) :=
  ⟨by decide, partition_routing_correct (fun k => k) 100 [[(42, 7)]] 42 (42, 7) (by decide)⟩

/-- Multiset of pairs held by the on-disk partition files of state `s`. -/
def diskPairs (s : MapState) : Multiset Pair :=
  ∑ p ∈ Finset.range partition_count, ((s.files p : List Pair) : Multiset Pair)

/-- Multiset of pairs held by the in-memory partition buffers of state `s`. -/
def bufPairs (s : MapState) : Multiset Pair :=
  ∑ p ∈ Finset.range partition_count, ((s.pbuf p : List Pair) : Multiset Pair)

/-- Summing the multiset coercion over an updated partition map isolates the
updated slot. -/
theorem sum_coe_update (f : Nat → List Pair) (p : Nat) (L : List Pair)
    (hp : p ∈ Finset.range partition_count) :
    (∑ q ∈ Finset.range partition_count,
        ((Function.update f p L q : List Pair) : Multiset Pair)) =
      (L : Multiset Pair) +
        ∑ q ∈ (Finset.range partition_count).erase p, ((f q : List Pair) : Multiset Pair) := by
  rw [← Finset.add_sum_erase _ (fun q => ((Function.update f p L q : List Pair) : Multiset Pair)) hp,
    Function.update_same]
  congr 1
  apply Finset.sum_congr rfl
  intro q hq
  rw [Function.update_noteq (Finset.ne_of_mem_erase hq)]

/-- Routing one pair conserves the pairs held: it adds exactly the routed
pair to the union of disk and in-memory contents. -/
theorem conserve_routePair (H : Nat → Nat) (T : Nat) (s : MapState) (kv : Pair) :
    diskPairs (routePair H T s kv) + bufPairs (routePair H T s kv) =
      diskPairs s + bufPairs s + {kv} := by
  have hp : get_partition_id H kv.1 ∈ Finset.range partition_count :=
    Finset.mem_range.2 (get_partition_id_lt H kv.1)
  simp only [routePair, flush, diskPairs, bufPairs, Function.update_same,
    Function.update_idem]
  rw [← Finset.add_sum_erase _ (fun q => ((s.files q : List Pair) : Multiset Pair)) hp,
    ← Finset.add_sum_erase _ (fun q => ((s.pbuf q : List Pair) : Multiset Pair)) hp]
  split <;> dsimp only
  · rw [sum_coe_update _ _ _ hp, sum_coe_update _ _ _ hp]
    simp only [Multiset.coe_nil, ← Multiset.coe_add, List.append_assoc,
      ← Multiset.coe_singleton]
    push_cast
    abel
  · rw [sum_coe_update _ _ _ hp,
      ← Finset.add_sum_erase _ (fun q => ((s.files q : List Pair) : Multiset Pair)) hp]
    simp only [← Multiset.coe_add, ← Multiset.coe_singleton]
    push_cast
    abel

theorem conserve_map_buffer (H : Nat → Nat) (T : Nat) (s : MapState) (buf : List Pair) :
    diskPairs (map_buffer H T s buf) + bufPairs (map_buffer H T s buf) =
      diskPairs s + bufPairs s + (buf : Multiset Pair) := by
  induction buf generalizing s with
  | nil => simp [map_buffer]
  | cons kv rest ih =>
      have h1 : map_buffer H T s (kv :: rest) = map_buffer H T (routePair H T s kv) rest := rfl
      rw [h1, ih, conserve_routePair]
      simp only [← Multiset.coe_singleton, ← Multiset.coe_add]
      push_cast
      abel_nf
      rw [← Multiset.cons_coe, ← Multiset.singleton_add]

theorem conserve_mapAll (H : Nat → Nat) (T : Nat) (bufs : List (List Pair)) :
    diskPairs (mapAll H T bufs) + bufPairs (mapAll H T bufs) =
      (bufs.flatten : Multiset Pair) := by
  rw [mapAll]
  have h : ∀ s, diskPairs (bufs.foldl (map_buffer H T) s) +
      bufPairs (bufs.foldl (map_buffer H T) s) =
        diskPairs s + bufPairs s + (bufs.flatten : Multiset Pair) := by
    induction bufs with
    | nil => intro s; simp
    | cons b rest ih =>
        intro s
        have h1 : (b :: rest).foldl (map_buffer H T) s =
            rest.foldl (map_buffer H T) (map_buffer H T s b) := rfl
        rw [h1, ih, conserve_map_buffer]
        simp only [List.flatten_cons, ← Multiset.coe_add]
        abel
  have hinit : diskPairs initState + bufPairs initState = 0 := by
    simp [diskPairs, bufPairs, initState]
  rw [h initState, hinit, zero_add]

/-- Closing the stream moves every remaining in-memory pair to disk. -/
theorem diskPairs_close (s : MapState) :
    diskPairs (close_deposit_stream s) = diskPairs s + bufPairs s := by
  rw [diskPairs, close_deposit_stream, diskPairs, bufPairs, ← Finset.sum_add_distrib]
  apply Finset.sum_congr rfl
  intro p _
  dsimp only
  by_cases he : (s.pbuf p).isEmpty
  · rw [if_pos he, List.isEmpty_iff.1 he]
    simp
  · rw [if_neg he, ← Multiset.coe_add]

/-- C1.  Conservation: after `close_deposit_stream` returns, the multiset of
pairs written to the partition files on disk equals the multiset of pairs
deposited by the producers (the staging buffers drained by the mapper), and
close has flushed every partition buffer: none is left non-empty. -/
theorem conservation (H : Nat → Nat) (T : Nat) (bufs : List (List Pair)) :
    diskPairs (close_deposit_stream (mapAll H T bufs)) = (bufs.flatten : Multiset Pair) ∧
      ∀ p, (close_deposit_stream (mapAll H T bufs)).pbuf p = [] := by
  refine ⟨?_, fun p => rfl⟩
  rw [diskPairs_close, conserve_mapAll]

/-- The natural pair order used by std::sort on `std::pair` values: key
ascending, ties broken by value ascending (the non-strict counterpart of
lexicographic `operator<`). -/
def pairLe (a b : Pair) : Bool :=
  decide (a.1 < b.1 ∨ (a.1 = b.1 ∧ a.2 ≤ b.2))

theorem pairLe_trans (a b c : Pair) (h1 : pairLe a b) (h2 : pairLe b c) : pairLe a c := by
  simp only [pairLe, decide_eq_true_eq] at h1 h2 ⊢
  omega

theorem pairLe_total (a b : Pair) : pairLe a b || pairLe b a := by
  simp only [pairLe, Bool.or_eq_true, decide_eq_true_eq]
  omega

/-- The collation stage (`collate`): `thread_count` workers are spawned;
worker `t_id` handles partitions `t_id, t_id + thread_count, ...`
(stride-sharded, so with at least one worker every partition below
`partition_count` is handled exactly once, by worker `p % thread_count`).
A worker reads each of its partition files wholly into memory, sorts the
pair array with std::sort, removes the old file, and writes the sorted
array to a fresh file at the same path.  A partition file's final content
is the sorted permutation of its previous content, determined by the total
antisymmetric pair order.  -/
def collate (thread_count : Nat) (files : Nat → List Pair) : Nat → List Pair :=
  fun p =>
    if 0 < thread_count ∧ p < partition_count then (files p).mergeSort pairLe else files p

/-- C3.  Sort postcondition: after `collate` with at least one worker
thread, every partition file holds a pair sequence that is non-decreasing
in the natural pair order (key ascending, ties broken by value ascending)
and is a permutation of the pairs the file held before collation. -/
theorem collate_sorts (thread_count : Nat) (files : Nat → List Pair) (p : Nat)
    (ht : 0 < thread_count) (hp : p < partition_count) :
    (collate thread_count files p).Pairwise
        (fun a b : Pair => a.1 < b.1 ∨ (a.1 = b.1 ∧ a.2 ≤ b.2)) ∧
      (collate thread_count files p).Perm (files p) := by
  rw [collate, if_pos ⟨ht, hp⟩]
  constructor
  · have h := @List.sorted_mergeSort _ pairLe pairLe_trans
      (fun a b => pairLe_total a b) (files p)
    refine h.imp ?_
    intro a b hab
    simpa [pairLe, decide_eq_true_eq] using hab
  · exact List.mergeSort_perm (files p) pairLe

/-- Witness for C3 at a concrete input: a single worker collating partition
file 0 containing three pairs. -/
theorem collate_sorts_witness :
    0 < 1 ∧ 0 < partition_count ∧
      ((collate 1 (fun _ => [(3, 2), (3, 1), (1, 5)]) 0).Pairwise
          (fun a b : Pair => a.1 < b.1 ∨ (a.1 = b.1 ∧ a.2 ≤ b.2)) ∧
        (collate 1 (fun _ => [(3, 2), (3, 1), (1, 5)]) 0).Perm [(3, 2), (3, 1), (1, 5)]) :=
  ⟨by decide, by decide,
    collate_sorts 1 (fun _ => [(3, 2), (3, 1), (1, 5)]) 0 (by decide) (by decide)⟩

/-- The buffer pool at the end of the deposit phase, as the contents of the
staging buffers in the free set and the full set.  `Object_Pool` is a LIFO
stack (push appends at the back, fetch pops the back); the stack top is the
list head here. -/
structure PoolState where
  free : List (List Pair)
  full : List (List Pair)

/-- The mapper loop (`map`) once `close_deposit_stream` has set
`stream_incoming` to false and producers have stopped: the loop keeps
running exactly while the full set is non-empty, and each iteration fetches
one full buffer, routes its pairs (`map_buffer`), clears the buffer, and
returns it to the free set.  It terminates only when the full set has been
fully drained. -/
def drainLoop (H : Nat → Nat) (T : Nat) :
    MapState → List (List Pair) → List (List Pair) → MapState × PoolState
  | ms, free, [] => (ms, ⟨free, []⟩)
  | ms, free, b :: rest => drainLoop H T (map_buffer H T ms b) ([] :: free) rest

/-- C7.  Pool quiescence: if at close every one of the `buf_count` staging
buffers is in the free set (cleared) or in the full set — no buffer is still
held by a producer — then after the mapper drains and joins, the free count
equals `buf_count`, the full count is 0, and every free buffer is cleared. -/
theorem pool_quiescence (H : Nat → Nat) (T : Nat) (buf_count : Nat)
    (ms : MapState) (ps : PoolState)
    (hcount : ps.free.length + ps.full.length = buf_count)
    (hclear : ∀ b ∈ ps.free, b = []) :
    (drainLoop H T ms ps.free ps.full).2.free.length = buf_count ∧
      (drainLoop H T ms ps.free ps.full).2.full.length = 0 ∧
      ∀ b ∈ (drainLoop H T ms ps.free ps.full).2.free, b = [] := by
  obtain ⟨free, full⟩ := ps
  simp only at hcount hclear ⊢
  induction full generalizing ms free buf_count with
  | nil =>
      exact ⟨by simpa using hcount, rfl, hclear⟩
  | cons b rest ih =>
      have h1 : drainLoop H T ms free (b :: rest) =
          drainLoop H T (map_buffer H T ms b) ([] :: free) rest := rfl
      rw [h1]
      apply ih
      · simp only [List.length_cons] at hcount ⊢
        omega
      · intro x hx
        rcases List.mem_cons.1 hx with h | h
        · exact h
        · exact hclear x h

/-- Witness for C7 at a concrete input: a pool of two buffers, one cleared
free buffer and one full buffer holding a pair, drains to quiescence. -/
theorem pool_quiescence_witness :
    ([([] : List Pair)].length + [[((3 : Nat), (4 : Nat))]].length = 2 ∧
        ∀ b ∈ [([] : List Pair)], b = []) ∧
      ((drainLoop (fun k => k) 100 initState [[]] [[(3, 4)]]).2.free.length = 2 ∧
        (drainLoop (fun k => k) 100 initState [[]] [[(3, 4)]]).2.full.length = 0 ∧
        ∀ b ∈ (drainLoop (fun k => k) 100 initState [[]] [[(3, 4)]]).2.free, b = []) :=
  ⟨⟨by decide, by decide⟩,
    pool_quiescence (fun k => k) 100 2 initState ⟨[[]], [[(3, 4)]]⟩ (by decide)
      (by decide)⟩

/-- State of a `Key_Value_Iterator`.  The raw `FILE*` handle is embedded as
the flag `fileOpen` together with the read offset `fpos` (in pairs) of the
open partition file (a null handle is `fileOpen = false`).  The scalar read
buffer `buf` is embedded as `bufAlloc` (whether malloc has run) together
with `bufData`, the pairs loaded by the last scalar fread, namely
`buf[0 .. buf_elem_count)`, with `buf_idx` the cursor into it.  The member
`elem` is value-initialized to `(0, 0)` by the `std::pair` default
constructor. -/
structure KVIter where
  work_pref : String
  pcount : Nat
  fileOpen : Bool
  curr_p_id : Nat
  fpos : Nat
  pos : Nat
  at_end : Bool
  bufAlloc : Bool
  bufData : List Pair
  buf_idx : Nat
  elem : Pair
deriving DecidableEq

/-- The iterator returned by `begin()`: not at end, null file handle, null
read buffer, partition id and position 0. -/
def beginIter (work_pref : String) (pcount : Nat) : KVIter :=
  ⟨work_pref, pcount, false, 0, 0, 0, false, false, [], 0, (0, 0)⟩

/-- The iterator returned by `end()`: as `begin()` but with `at_end` set. -/
def endIter (work_pref : String) (pcount : Nat) : KVIter :=
  ⟨work_pref, pcount, false, 0, 0, 0, true, false, [], 0, (0, 0)⟩

/-- Iterator equality (`operator==`): if either file handle is null, both
must be null and the `at_end` flags must agree; otherwise the raw `FILE*`
handles must be pointer-equal and `pos` must agree.  The embedding covers
exactly the comparisons the begin/end protocol performs — between
separately constructed iterators: their handles come from distinct fopen
calls and are never pointer-equal, so the both-open case is unequal. -/
def iterEq (a b : KVIter) : Bool :=
  if !a.fileOpen || !b.fileOpen then
    !a.fileOpen && !b.fileOpen && (a.at_end == b.at_end)
  else
    false

/-- Copy construction of an iterator: every scalar member is copied and the
read buffer is set to null; if the source has a non-null file handle or a
non-null read buffer the process aborts with Fatal-Misuse (`none`).  On the
success path the source's handle and buffer are both null, so the copy
equals the source. -/
def copyIter (other : KVIter) : Option KVIter :=
  if other.fileOpen || other.bufAlloc then none else some other

/-- set_file_handle(p_id): close any open handle and fopen the partition
file of `p_id` afresh (read offset 0).  Partition files exist exactly for
ids below `pcount` (the collator creates `partition_count` of them, and the
iterator is constructed with that count); fopen of any other id's path
returns null and the iterator aborts (`none`). -/
def set_file_handle (it : KVIter) (p_id : Nat) : Option KVIter :=
  if p_id < it.pcount then some { it with fileOpen := true, fpos := 0 } else none

/-- The refill loop of `advance()`: while the scalar buffer is exhausted
(`buf_idx >= buf_elem_count`), fread up to `B = buf_sz` pairs from the open
file; on zero pairs read, move to the next partition — at partition id
`pcount` close the file, set `at_end` and return — otherwise re-open and
retry; once the buffer holds an unconsumed pair, load it into `elem` and
advance `buf_idx` and `pos`.  `fuel` bounds the loop steps; the wrappers
pass `pcount + 1`, which cannot run out because each step increases
`curr_p_id`, which `set_file_handle` keeps below `pcount`.  A `none` result
is a process abort. -/
def advLoop (files : Nat → List Pair) (B : Nat) : Nat → KVIter → Option KVIter
  | 0, _ => none
  | fuel + 1, it =>
    if h : it.buf_idx < it.bufData.length then
      some { it with elem := it.bufData.get ⟨it.buf_idx, h⟩,
                     buf_idx := it.buf_idx + 1, pos := it.pos + 1 }
    else if !it.fileOpen then
      none
    else
      match ((files it.curr_p_id).drop it.fpos).take B with
      | [] =>
        if it.curr_p_id + 1 = it.pcount then
          some { it with bufData := [], buf_idx := 0,
                         curr_p_id := it.curr_p_id + 1,
                         fileOpen := false, at_end := true }
        else if it.curr_p_id + 1 < it.pcount then
          advLoop files B fuel
            { it with bufData := [], buf_idx := 0,
                      curr_p_id := it.curr_p_id + 1,
                      fileOpen := true, fpos := 0 }
        else none
      | kv :: crest =>
        some { it with bufData := kv :: crest, buf_idx := 1,
                       fpos := it.fpos + (kv :: crest).length,
                       elem := kv, pos := it.pos + 1 }

/-- advance(): on first use (null read buffer) open partition 0 and malloc
the read buffer, then run the refill loop. -/
def advance (files : Nat → List Pair) (B : Nat) (it : KVIter) : Option KVIter :=
  if !it.bufAlloc then
    match set_file_handle it 0 with
    | none => none
    | some it1 => advLoop files B (it1.pcount + 1) { it1 with bufAlloc := true }
  else advLoop files B (it.pcount + 1) it

/-- operator*: lazily initialize via `advance` when the read buffer is null,
then return the key of the current element (paired with the mutated
iterator). -/
def star (files : Nat → List Pair) (B : Nat) (it : KVIter) : Option (Nat × KVIter) :=
  if !it.bufAlloc then
    (advance files B it).map (fun it1 => (it1.elem.1, it1))
  else some (it.elem.1, it)

/-- The skip loop of `advance_key_block`: advance while the file handle is
non-null and the current element's key still equals `key`. -/
def akbLoop (files : Nat → List Pair) (B : Nat) : Nat → Nat → KVIter → Option KVIter
  | 0, _, _ => none
  | fuel + 1, key, it =>
    if it.fileOpen && it.elem.1 == key then
      match advance files B it with
      | none => none
      | some it1 => akbLoop files B fuel key it1
    else some it

/-- Total number of pairs in the collection with `P` partition files. -/
def totalPairs (files : Nat → List Pair) (P : Nat) : Nat :=
  (((List.range P).map files).flatten).length

/-- advance_key_block() (the body of operator++): advance once if the read
buffer is null, then skip all elements sharing the current key.  The skip
loop's fuel `totalPairs + 2` cannot run out: each advance either consumes a
pair of the remaining stream or closes the file, ending the loop. -/
def advance_key_block (files : Nat → List Pair) (B : Nat) (it : KVIter) :
    Option KVIter :=
  match (if !it.bufAlloc then advance files B it else some it) with
  | none => none
  | some it1 => akbLoop files B (totalPairs files it1.pcount + 2) it1.elem.1 it1

/-- The retry loop of `read(buf, count)`: fread up to `count` pairs from the
current file (0 when the handle is null); on zero pairs, increment the
partition id — if it reaches `pcount`, close the file, set `at_end` and
return 0 — otherwise `set_file_handle` the next id (aborting on ids with no
partition file) and retry; a nonzero fread count is added to `pos` and
returned.  `fuel` bounds the loop steps; the wrapper passes `pcount + 1`,
which cannot run out.  A `none` result is a process abort. -/
def readLoop (files : Nat → List Pair) (count : Nat) :
    Nat → KVIter → Option (KVIter × Nat)
  | 0, _ => none
  | fuel + 1, it =>
    match (if it.fileOpen then ((files it.curr_p_id).drop it.fpos).take count else []) with
    | [] =>
      if it.curr_p_id + 1 = it.pcount then
        if it.fileOpen then
          some ({ it with curr_p_id := it.curr_p_id + 1,
                          fileOpen := false, at_end := true }, 0)
        else none
      else if it.curr_p_id + 1 < it.pcount then
        readLoop files count fuel
          { it with curr_p_id := it.curr_p_id + 1, fileOpen := true, fpos := 0 }
      else none
    | chunk@(_ :: _) =>
      some ({ it with fpos := it.fpos + chunk.length, pos := it.pos + chunk.length },
        chunk.length)

/-- read(buf, count): under the iterator's lock, open partition 0 if no file
is open and the iterator is not at end, then run the retry loop. -/
def read (files : Nat → List Pair) (count : Nat) (it : KVIter) :
    Option (KVIter × Nat) :=
  if !it.fileOpen && !it.at_end then
    match set_file_handle it 0 with
    | none => none
    | some it1 => readLoop files count (it1.pcount + 1) it1
  else readLoop files count (it.pcount + 1) it

/-- The canonical batched consumption loop of the collection: repeat
`read(buf, N)` until a call returns 0, collecting the nonzero pair counts
returned, in order. -/
def readDriver (files : Nat → List Pair) (N : Nat) :
    Nat → KVIter → Option (List Nat × KVIter)
  | 0, _ => none
  | fuel + 1, it =>
    match read files N it with
    | none => none
    | some (it1, c) =>
      if c = 0 then some ([], it1)
      else
        match readDriver files N fuel it1 with
        | none => none
        | some (cs, itF) => some (c :: cs, itF)

/-- All batched reads of a fresh begin iterator, with fuel covering one call
per pair plus the zero-returning final call. -/
def readAll (files : Nat → List Pair) (N : Nat) (work_pref : String) (P : Nat) :
    Option (List Nat × KVIter) :=
  readDriver files N (totalPairs files P + 2) (beginIter work_pref P)

/-- The canonical scalar traversal `while (it != end) { ks.push(*it); ++it }`
against a freshly constructed end iterator, returning the yielded keys in
order (one `++it` step per yielded key). -/
def scalarLoop (files : Nat → List Pair) (B : Nat) (e : KVIter) :
    Nat → KVIter → Option (List Nat)
  | 0, _ => none
  | fuel + 1, it =>
    if iterEq it e then some []
    else
      match star files B it with
      | none => none
      | some (k, it1) =>
        match advance_key_block files B it1 with
        | none => none
        | some it2 =>
          match scalarLoop files B e fuel it2 with
          | none => none
          | some ks => some (k :: ks)

/-- The scalar traversal of the whole collection from a fresh begin iterator,
with fuel covering one loop iteration per pair plus two. -/
def scalarIterKeys (files : Nat → List Pair) (B : Nat)
    (work_pref : String) (P : Nat) : Option (List Nat) :=
  scalarLoop files B (endIter work_pref P) (totalPairs files P + 2)
    (beginIter work_pref P)

/-- The pair sequence of the whole collection: the concatenation of the
partition files `0 .. P-1`. -/
def allPairs (files : Nat → List Pair) (P : Nat) : List Pair :=
  ((List.range P).map files).flatten

/-- The pair sequence of partitions `p .. P-1`. -/
def filesFrom (files : Nat → List Pair) (P p : Nat) : List Pair :=
  ((List.range' p (P - p)).map files).flatten

/-- The pairs not yet consumed by the scalar iterator: the unconsumed rest of
the read buffer, then the unread rest of the open partition file, then the
later partitions. -/
def iterStream (files : Nat → List Pair) (it : KVIter) : List Pair :=
  it.bufData.drop it.buf_idx ++ (files it.curr_p_id).drop it.fpos ++
    filesFrom files it.pcount (it.curr_p_id + 1)

/-- C8.  Iterator copy restriction: copy construction succeeds exactly when
the source has not begun reading — its file handle and its read buffer are
both null — and the copy then preserves the working prefix, the partition
count, the position, the current partition id and the at-end flag; copying
an in-use iterator aborts the process with Fatal-Misuse. -/
theorem copy_restriction (it : KVIter) :
    ((∃ c, copyIter it = some c) ↔ it.fileOpen = false ∧ it.bufAlloc = false) ∧
      ∀ c, copyIter it = some c →
        c.work_pref = it.work_pref ∧ c.pcount = it.pcount ∧ c.pos = it.pos ∧
          c.curr_p_id = it.curr_p_id ∧ c.at_end = it.at_end := by
  rw [copyIter]
  by_cases h : (it.fileOpen || it.bufAlloc : Bool)
  · rw [if_pos h]
    simp only [Bool.or_eq_true] at h
    constructor
    · constructor
      · rintro ⟨c, hc⟩
        cases hc
      · rintro ⟨h1, h2⟩
        rw [h1, h2] at h
        simp at h
    · intro c hc
      cases hc
  · rw [if_neg h]
    simp only [Bool.or_eq_true, not_or, Bool.not_eq_true] at h
    constructor
    · exact ⟨fun _ => h, fun _ => ⟨it, rfl⟩⟩
    · rintro c ⟨rfl⟩
      exact ⟨rfl, rfl, rfl, rfl, rfl⟩

/-- Witness for C8: applying the copy characterization to a freshly
constructed begin iterator, for which the copy succeeds. -/
theorem copy_restriction_witness :
    ((∃ c, copyIter (beginIter "kvc" 512) = some c) ↔
        (beginIter "kvc" 512).fileOpen = false ∧ (beginIter "kvc" 512).bufAlloc = false) ∧
      ∀ c, copyIter (beginIter "kvc" 512) = some c →
        c.work_pref = (beginIter "kvc" 512).work_pref ∧
          c.pcount = (beginIter "kvc" 512).pcount ∧
          c.pos = (beginIter "kvc" 512).pos ∧
          c.curr_p_id = (beginIter "kvc" 512).curr_p_id ∧
          c.at_end = (beginIter "kvc" 512).at_end :=
  copy_restriction (beginIter "kvc" 512)

/-- C9.  A read call on an iterator that a previous read has exhausted (at
end, null file handle, current partition id equal to the partition count)
does not return 0 again: the retry loop increments the partition id past
`pcount`, misses the `== pcount` termination test, and `set_file_handle`
fopens the path of a partition file that does not exist, aborting the
process. -/
theorem read_after_end_aborts (files : Nat → List Pair) (N : Nat) (it : KVIter)
    (hend : it.at_end = true) (hfile : it.fileOpen = false)
    (hcurr : it.curr_p_id = it.pcount) :
    read files N it = none := by
  rw [read, if_neg (by simp [hend]), readLoop]
  simp only [hfile, hcurr]
  have h1 : ¬(it.pcount + 1 = it.pcount) := by omega
  have h2 : ¬(it.pcount + 1 < it.pcount) := by omega
  simp [h1, h2]

/-- Witness for C9: a concrete exhausted iterator (partition count 512,
current id 512, at end, file closed) aborts on a further read. -/
theorem read_after_end_aborts_witness :
    ((⟨"kvc", 512, false, 512, 0, 7, true, false, [], 0, (0, 0)⟩ : KVIter).at_end = true ∧
        (⟨"kvc", 512, false, 512, 0, 7, true, false, [], 0, (0, 0)⟩ : KVIter).fileOpen = false ∧
        (⟨"kvc", 512, false, 512, 0, 7, true, false, [], 0, (0, 0)⟩ : KVIter).curr_p_id =
          (⟨"kvc", 512, false, 512, 0, 7, true, false, [], 0, (0, 0)⟩ : KVIter).pcount) ∧
      read (fun _ => []) 4 (⟨"kvc", 512, false, 512, 0, 7, true, false, [], 0, (0, 0)⟩ : KVIter) =
        none :=
  ⟨⟨rfl, rfl, rfl⟩,
    read_after_end_aborts (fun _ => []) 4 _ rfl rfl rfl⟩

/-- C5 as stated fails on the code: for the empty collection — no deposits,
every partition file zero-length — freshly constructed, never dereferenced
begin and end iterators still compare unequal, because operator== compares
the at_end flags (false against true) when both file handles are null. -/
theorem fresh_begin_ne_end_on_empty :
    totalPairs (fun _ => []) partition_count = 0 ∧
      iterEq (beginIter "kvc" partition_count) (endIter "kvc" partition_count) = false := by
  constructor
  · decide
  · rfl

theorem filesFrom_of_ge (files : Nat → List Pair) (P p : Nat) (h : P ≤ p) :
    filesFrom files P p = [] := by
  rw [filesFrom, Nat.sub_eq_zero_of_le h]
  rfl

theorem filesFrom_succ (files : Nat → List Pair) (P p : Nat) (h : p < P) :
    filesFrom files P p = files p ++ filesFrom files P (p + 1) := by
  rw [filesFrom, filesFrom]
  have h1 : P - p = (P - (p + 1)) + 1 := by omega
  rw [h1, List.range'_succ]
  simp

theorem allPairs_eq_filesFrom (files : Nat → List Pair) (P : Nat) :
    allPairs files P = filesFrom files P 0 := by
  rw [allPairs, filesFrom, Nat.sub_zero, List.range_eq_range']

theorem totalPairs_eq_length (files : Nat → List Pair) (P : Nat) :
    totalPairs files P = (allPairs files P).length := rfl

/-- Dropping the head of a nonempty take and then the rest of the taken
prefix from the original list recovers the tail of the original list. -/
theorem take_drop_one_append (l : List Pair) (n : Nat) (hn : 0 < n) :
    (l.take n).drop 1 ++ l.drop (l.take n).length = l.drop 1 := by
  rcases l with _ | ⟨a, t⟩
  · simp
  · obtain ⟨m, rfl⟩ : ∃ m, n = m + 1 := ⟨n - 1, by omega⟩
    simp only [List.take_succ_cons, List.drop_succ_cons, List.length_cons, List.drop_one,
      List.tail_cons]
    by_cases hm : m ≤ t.length
    · rw [List.length_take, Nat.min_eq_left hm, List.drop_zero, List.drop_zero,
        List.take_append_drop]
    · rw [List.take_of_length_le (by omega), List.drop_eq_nil_of_le (le_refl _),
        List.append_nil]

/-- The stream identity of a successful refill: the loaded chunk minus its
consumed head, then the file past the advanced offset, then the later
partitions, equals the tail of the pre-refill stream. -/
theorem chunk_stream_identity (l tail : List Pair) (fpos b : Nat)
    (kv0 : Pair) (crest : List Pair)
    (hchunk : (l.drop fpos).take (b + 1) = kv0 :: crest) :
    (kv0 :: crest).drop 1 ++ l.drop (fpos + (kv0 :: crest).length) ++ tail =
      (l.drop fpos).drop 1 ++ tail := by
  rw [← hchunk, ← List.drop_drop, take_drop_one_append _ _ (by omega)]

/-- Invariant of a scalar iterator mid-iteration: the read buffer is
allocated, the file of a valid partition is open, the read offset is within
the file, the buffer cursor is within the loaded chunk, and the loaded
chunk is no longer than the consumed file prefix. -/
structure GoodIter (files : Nat → List Pair) (it : KVIter) : Prop where
  fopen : it.fileOpen = true
  balloc : it.bufAlloc = true
  hcurr : it.curr_p_id < it.pcount
  hfpos : it.fpos ≤ (files it.curr_p_id).length
  hbuf : it.buf_idx ≤ it.bufData.length
  hblen : it.bufData.length ≤ it.fpos

/-- Behaviour of the refill loop of `advance` on a good iterator with
enough fuel: on an empty remaining stream it closes the file, sets at-end
and leaves element and position untouched; on a non-empty remaining stream
it consumes exactly the head into `elem`, keeps the iterator good, and
advances `pos` by one. -/
theorem advLoop_spec (files : Nat → List Pair) (B : Nat) (hB : 0 < B) :
    ∀ (fuel : Nat) (it : KVIter), GoodIter files it → it.pcount - it.curr_p_id < fuel →
      (iterStream files it = [] →
        ∃ it', advLoop files B fuel it = some it' ∧
          it'.fileOpen = false ∧ it'.at_end = true ∧ it'.curr_p_id = it.pcount ∧
          it'.elem = it.elem ∧ it'.pos = it.pos ∧ it'.pcount = it.pcount ∧
          it'.work_pref = it.work_pref ∧ it'.bufAlloc = it.bufAlloc ∧
          it'.bufData = [] ∧ it'.buf_idx = 0) ∧
      (∀ kv rest, iterStream files it = kv :: rest →
        ∃ it', advLoop files B fuel it = some it' ∧ GoodIter files it' ∧
          iterStream files it' = rest ∧ it'.elem = kv ∧ it'.pos = it.pos + 1 ∧
          it'.at_end = it.at_end ∧ it'.pcount = it.pcount ∧
          it'.work_pref = it.work_pref ∧ it'.bufAlloc = it.bufAlloc) := by
  intro fuel
  induction fuel with
  | zero => intro it _ hf; omega
  | succ fuel ih =>
    intro it hg hf
    simp only [advLoop]
    by_cases hbi : it.buf_idx < it.bufData.length
    · rw [dif_pos hbi]
      have hdrop : it.bufData.drop it.buf_idx =
          it.bufData[it.buf_idx] :: it.bufData.drop (it.buf_idx + 1) :=
        List.drop_eq_getElem_cons hbi
      constructor
      · intro hstream
        rw [iterStream] at hstream
        simp only [List.append_eq_nil, List.drop_eq_nil_iff] at hstream
        omega
      · intro kv rest heq
        rw [iterStream, hdrop, List.cons_append] at heq
        injection heq with h1 h2
        refine ⟨_, rfl, ?_, ?_, h1, rfl, rfl, rfl, rfl, rfl⟩
        · refine ⟨hg.fopen, hg.balloc, hg.hcurr, hg.hfpos, ?_, hg.hblen⟩
          dsimp
          omega
        · rw [iterStream]
          dsimp
          exact h2
    · rw [dif_neg hbi]
      have hfo := hg.fopen
      have hbufnil : it.bufData.drop it.buf_idx = [] :=
        List.drop_eq_nil_of_le (by omega)
      simp only [hfo, Bool.not_true, Bool.false_eq_true, if_false]
      cases hchunk : ((files it.curr_p_id).drop it.fpos).take B with
      | nil =>
        have hX : (files it.curr_p_id).drop it.fpos = [] := by
          rcases List.take_eq_nil_iff.1 hchunk with h | h
          · omega
          · exact h
        have hstream : iterStream files it = filesFrom files it.pcount (it.curr_p_id + 1) := by
          rw [iterStream, hbufnil, hX]
          rfl
        by_cases hpe : it.curr_p_id + 1 = it.pcount
        · rw [if_pos hpe]
          constructor
          · intro _
            exact ⟨_, rfl, rfl, rfl, hpe, rfl, rfl, rfl, rfl, rfl, rfl, rfl⟩
          · intro kv rest heq
            rw [hstream, filesFrom_of_ge _ _ _ (by omega)] at heq
            simp at heq
        · rw [if_neg hpe]
          by_cases hlt : it.curr_p_id + 1 < it.pcount
          · rw [if_pos hlt]
            set it1 : KVIter :=
              { it with
                  bufData := [], buf_idx := 0, curr_p_id := it.curr_p_id + 1,
                  fileOpen := true, fpos := 0 } with hit1
            have hg1 : GoodIter files it1 :=
              ⟨rfl, hg.balloc, hlt, Nat.zero_le _, Nat.le_refl _, Nat.le_refl _⟩
            have hf1 : it1.pcount - it1.curr_p_id < fuel := by
              rw [hit1]
              dsimp
              omega
            have hs1 : iterStream files it1 = iterStream files it := by
              rw [hit1, iterStream, hstream]
              dsimp
              rw [← filesFrom_succ _ _ _ hlt]
            obtain ⟨part1, part2⟩ := ih it1 hg1 hf1
            constructor
            · intro hs
              obtain ⟨it', he, h1, h2, h3, h4, h5, h6, h7, h8, h9, h10⟩ :=
                part1 (by rw [hs1, hs])
              exact ⟨it', he, h1, h2, h3, h4, h5, h6, h7, h8, h9, h10⟩
            · intro kv rest heq
              obtain ⟨it', he, hgood, hs', helem, hpos, hae, hpc, hwp, hba⟩ :=
                part2 kv rest (by rw [hs1, heq])
              exact ⟨it', he, hgood, hs', helem, hpos, hae, hpc, hwp, hba⟩
          · exfalso
            have := hg.hcurr
            omega
      | cons kv0 crest =>
        have hXne : (files it.curr_p_id).drop it.fpos ≠ [] := by
          intro h
          rw [h] at hchunk
          simp at hchunk
        obtain ⟨b, rfl⟩ : ∃ b, B = b + 1 := ⟨B - 1, by omega⟩
        have hlenle : (kv0 :: crest).length ≤ ((files it.curr_p_id).drop it.fpos).length := by
          rw [← hchunk, List.length_take]
          exact Nat.min_le_right _ _
        have hdroplen : ((files it.curr_p_id).drop it.fpos).length =
            (files it.curr_p_id).length - it.fpos := List.length_drop ..
        have hXeq : (files it.curr_p_id).drop it.fpos =
            kv0 :: (crest ++ ((files it.curr_p_id).drop it.fpos).drop (b + 1)) := by
          conv_lhs => rw [← List.take_append_drop (b + 1) ((files it.curr_p_id).drop it.fpos)]
          rw [hchunk]
          rfl
        constructor
        · intro hs
          rw [iterStream, hbufnil] at hs
          simp only [List.nil_append, List.append_eq_nil] at hs
          exact (hXne hs.1).elim
        · intro kv rest heq
          rw [iterStream, hbufnil, List.nil_append] at heq
          rw [hXeq, List.cons_append] at heq
          injection heq with h1 h2
          have h4 : (kv0 :: crest).length = crest.length + 1 := rfl
          refine ⟨_, rfl, ?_, ?_, ?_, rfl, rfl, rfl, rfl, rfl⟩
          · refine ⟨rfl, hg.balloc, hg.hcurr, ?_, ?_, ?_⟩
            · dsimp
              have h3 := hg.hfpos
              omega
            · dsimp
              omega
            · dsimp
              omega
          · simp only [iterStream]
            rw [chunk_stream_identity _ _ _ _ _ _ hchunk, hXeq, List.drop_succ_cons,
              List.drop_zero]
            exact h2
          · dsimp
            exact h1

/-- The state of a begin iterator just after the lazy initialization inside
advance: partition 0 opened, read buffer allocated, nothing consumed. -/
def startedIter (work_pref : String) (P : Nat) : KVIter :=
  ⟨work_pref, P, true, 0, 0, 0, false, true, [], 0, (0, 0)⟩

theorem advance_beginIter (files : Nat → List Pair) (B : Nat) (work_pref : String)
    (P : Nat) (hP : 0 < P) :
    advance files B (beginIter work_pref P) =
      advLoop files B (P + 1) (startedIter work_pref P) := by
  rw [advance, beginIter, startedIter, set_file_handle]
  simp [hP]

theorem goodIter_startedIter (files : Nat → List Pair) (work_pref : String)
    (P : Nat) (hP : 0 < P) : GoodIter files (startedIter work_pref P) :=
  ⟨rfl, rfl, hP, Nat.zero_le _, Nat.le_refl _, Nat.le_refl _⟩

theorem iterStream_startedIter (files : Nat → List Pair) (work_pref : String)
    (P : Nat) (hP : 0 < P) :
    iterStream files (startedIter work_pref P) = allPairs files P := by
  rw [iterStream, startedIter, allPairs_eq_filesFrom, filesFrom_succ _ _ _ hP]
  rfl

/-- The refill loop never reads the at_end flag: running it on a state with
at_end pre-set yields the same result with at_end set. -/
theorem advLoop_at_end (files : Nat → List Pair) (B : Nat) :
    ∀ (fuel : Nat) (it : KVIter),
      advLoop files B fuel { it with at_end := true } =
        (advLoop files B fuel it).map (fun r => { r with at_end := true }) := by
  intro fuel
  induction fuel with
  | zero => intro it; rfl
  | succ fuel ih =>
    intro it
    simp only [advLoop]
    by_cases hbi : it.buf_idx < it.bufData.length
    · rw [dif_pos hbi, dif_pos hbi]
      rfl
    · rw [dif_neg hbi, dif_neg hbi]
      by_cases hfo : it.fileOpen
      · simp only [hfo, Bool.not_true, Bool.false_eq_true, if_false]
        cases hchunk : ((files it.curr_p_id).drop it.fpos).take B with
        | nil =>
          by_cases hpe : it.curr_p_id + 1 = it.pcount
          · rw [if_pos hpe, if_pos hpe]
            rfl
          · rw [if_neg hpe, if_neg hpe]
            by_cases hlt : it.curr_p_id + 1 < it.pcount
            · rw [if_pos hlt, if_pos hlt]
              exact ih { it with bufData := [], buf_idx := 0,
                                 curr_p_id := it.curr_p_id + 1,
                                 fileOpen := true, fpos := 0 }
            · rw [if_neg hlt, if_neg hlt]
              rfl
        | cons kv0 crest => rfl
      · simp only [Bool.not_eq_true] at hfo
        simp only [hfo, Bool.not_false, if_true]
        rfl

/-- The end iterator is the begin iterator with at_end pre-set. -/
theorem endIter_eq (work_pref : String) (P : Nat) :
    endIter work_pref P = { beginIter work_pref P with at_end := true } := rfl

/-- Dereferencing a fresh end iterator behaves exactly as dereferencing a
fresh begin iterator, modulo the pre-set at_end flag. -/
theorem star_endIter (files : Nat → List Pair) (B : Nat) (work_pref : String)
    (P : Nat) :
    star files B (endIter work_pref P) =
      (star files B (beginIter work_pref P)).map
        (fun r => (r.1, { r.2 with at_end := true })) := by
  rw [star, star]
  by_cases hP : 0 < P
  · rw [if_pos (by rfl), if_pos (by rfl)]
    have h1 : advance files B (endIter work_pref P) =
        advLoop files B (P + 1) { startedIter work_pref P with at_end := true } := by
      rw [advance, endIter, startedIter, set_file_handle]
      simp [hP]
    rw [h1, advance_beginIter files B work_pref P hP, advLoop_at_end]
    cases advLoop files B (P + 1) (startedIter work_pref P) with
    | none => rfl
    | some r => rfl
  · have h0 : P = 0 := by omega
    subst h0
    rw [if_pos (by rfl), if_pos (by rfl)]
    have h1 : advance files B (endIter work_pref 0) = none := by
      rw [advance, set_file_handle]
      simp [endIter]
    have h2 : advance files B (beginIter work_pref 0) = none := by
      rw [advance, set_file_handle]
      simp [beginIter]
    rw [h1, h2]
    rfl

/-- C10.  The scalar dereference never consults at_end before lazy
initialization: dereferencing a freshly constructed end iterator behaves
exactly like dereferencing a freshly constructed begin iterator — the
results differ only in the pre-set at_end flag — and on a non-empty
collection it opens partition 0, allocates the read buffer and yields the
first key of the concatenated collection rather than failing. -/
theorem end_deref_like_begin (work_pref : String) (files : Nat → List Pair)
    (B P : Nat) (hB : 0 < B) (hP : 0 < P) (hne : allPairs files P ≠ []) :
    star files B (endIter work_pref P) =
      (star files B (beginIter work_pref P)).map
        (fun r => (r.1, { r.2 with at_end := true })) ∧
      ∃ it1, star files B (beginIter work_pref P) =
          some (((allPairs files P).head hne).1, it1) ∧
        it1.fileOpen = true ∧ it1.bufAlloc = true ∧ it1.pos = 1 ∧
        it1.elem = (allPairs files P).head hne := by
  refine ⟨star_endIter files B work_pref P, ?_⟩
  have hgood := goodIter_startedIter files work_pref P hP
  have hfuel : (startedIter work_pref P).pcount - (startedIter work_pref P).curr_p_id
      < P + 1 := by
    rw [startedIter]
    dsimp
    omega
  obtain ⟨-, part2⟩ := advLoop_spec files B hB (P + 1) (startedIter work_pref P) hgood hfuel
  obtain ⟨it1, he, hgood1, -, helem, hpos, -, -, -, -⟩ :=
    part2 ((allPairs files P).head hne) ((allPairs files P).tail)
      (by rw [iterStream_startedIter files work_pref P hP, List.head_cons_tail])
  refine ⟨it1, ?_, hgood1.fopen, hgood1.balloc, hpos, helem⟩
  rw [star, if_pos (by rfl), advance_beginIter files B work_pref P hP, he]
  simp [helem]

/-- Witness for C10 at a concrete input: a collection with the single pair
(7, 3) in partition 7 of 512; dereferencing the fresh end iterator matches
dereferencing the fresh begin iterator and yields key 7. -/
theorem end_deref_like_begin_witness :
    (0 < 2 ∧ 0 < 512 ∧ allPairs (Function.update (fun _ => []) 7 [((7 : Nat), (3 : Nat))]) 512 ≠ []) ∧
      (star (Function.update (fun _ => []) 7 [(7, 3)]) 2 (endIter "kvc" 512) =
          (star (Function.update (fun _ => []) 7 [(7, 3)]) 2 (beginIter "kvc" 512)).map
            (fun r => (r.1, { r.2 with at_end := true })) ∧
        ∃ it1, star (Function.update (fun _ => []) 7 [(7, 3)]) 2 (beginIter "kvc" 512) =
            some (((allPairs (Function.update (fun _ => []) 7 [(7, 3)]) 512).head
                (by decide)).1, it1) ∧
          it1.fileOpen = true ∧ it1.bufAlloc = true ∧ it1.pos = 1 ∧
          it1.elem = (allPairs (Function.update (fun _ => []) 7 [(7, 3)]) 512).head
            (by decide)) :=
  ⟨⟨by decide, by decide, by decide⟩,
    end_deref_like_begin "kvc" (Function.update (fun _ => []) 7 [(7, 3)]) 2 512
      (by decide) (by decide) (by decide)⟩

/-- C5 amended: freshly constructed, never dereferenced begin and end
iterators always compare unequal — both file handles are null but the
at_end flags differ — regardless of whether any pair exists; for the empty
collection, the begin iterator compares equal to end only after it has been
dereferenced, which scans the empty partitions, closes the file and raises
its at_end flag. -/
theorem begin_end_equality (work_pref : String) (files : Nat → List Pair) (B : Nat)
    (hB : 0 < B) (hempty : totalPairs files partition_count = 0) :
    iterEq (beginIter work_pref partition_count) (endIter work_pref partition_count) =
        false ∧
      (star files B (beginIter work_pref partition_count)).map
        (fun r => iterEq r.2 (endIter work_pref partition_count)) = some true := by
  refine ⟨rfl, ?_⟩
  have hP : 0 < partition_count := by
    rw [partition_count]
    norm_num
  have hgood := goodIter_startedIter files work_pref partition_count hP
  have hfuel : (startedIter work_pref partition_count).pcount -
      (startedIter work_pref partition_count).curr_p_id < partition_count + 1 := by
    rw [startedIter]
    dsimp
    omega
  obtain ⟨part1, -⟩ :=
    advLoop_spec files B hB (partition_count + 1) (startedIter work_pref partition_count)
      hgood hfuel
  have hnil : allPairs files partition_count = [] := by
    have := totalPairs_eq_length files partition_count
    rw [hempty] at this
    exact List.length_eq_zero.1 this.symm
  obtain ⟨it', he, hfo, hae, -, -, -, -, -, -, -, -⟩ :=
    part1 (by rw [iterStream_startedIter files work_pref partition_count hP, hnil])
  rw [star, if_pos (by rfl),
    advance_beginIter files B work_pref partition_count hP, he]
  simp [iterEq, endIter, hfo, hae]

/-- Witness for the amended C5 at a concrete input: the empty collection
with 512 zero-length partition files. -/
theorem begin_end_equality_witness :
    (0 < 1 ∧ totalPairs (fun _ => []) partition_count = 0) ∧
      (iterEq (beginIter "kvc" partition_count) (endIter "kvc" partition_count) =
          false ∧
        (star (fun _ => []) 1 (beginIter "kvc" partition_count)).map
          (fun r => iterEq r.2 (endIter "kvc" partition_count)) = some true) :=
  ⟨⟨by decide, by decide⟩,
    begin_end_equality "kvc" (fun _ => []) 1 (by decide) (by decide)⟩

/-- Invariant of an iterator mid-batched-read: the file of a valid partition
is open with the read offset within it. -/
structure ReadGood (files : Nat → List Pair) (it : KVIter) : Prop where
  fopen : it.fileOpen = true
  hcurr : it.curr_p_id < it.pcount
  hfpos : it.fpos ≤ (files it.curr_p_id).length

/-- The pairs not yet consumed by the batched read path: the unread rest of
the open partition file, then the later partitions. -/
def readStream (files : Nat → List Pair) (it : KVIter) : List Pair :=
  (files it.curr_p_id).drop it.fpos ++ filesFrom files it.pcount (it.curr_p_id + 1)

/-- Behaviour of the retry loop of `read` on a good iterator with enough
fuel: on an exhausted stream it closes the file, sets at-end and returns 0;
otherwise it returns between 1 and `N` pairs off the front of the stream. -/
theorem readLoop_spec (files : Nat → List Pair) (N : Nat) (hN : 0 < N) :
    ∀ (fuel : Nat) (it : KVIter), ReadGood files it → it.pcount - it.curr_p_id < fuel →
      (readStream files it = [] →
        ∃ it', readLoop files N fuel it = some (it', 0) ∧
          it'.fileOpen = false ∧ it'.at_end = true ∧ it'.curr_p_id = it.pcount ∧
          it'.pos = it.pos ∧ it'.pcount = it.pcount ∧ it'.work_pref = it.work_pref) ∧
      (readStream files it ≠ [] →
        ∃ it' c, readLoop files N fuel it = some (it', c) ∧ ReadGood files it' ∧
          0 < c ∧ c ≤ N ∧ c ≤ (readStream files it).length ∧
          readStream files it' = (readStream files it).drop c ∧
          it'.pos = it.pos + c ∧ it'.at_end = it.at_end ∧
          it'.pcount = it.pcount ∧ it'.work_pref = it.work_pref) := by
  intro fuel
  induction fuel with
  | zero => intro it _ hf; omega
  | succ fuel ih =>
    intro it hg hf
    simp only [readLoop, hg.fopen, if_true]
    cases hchunk : ((files it.curr_p_id).drop it.fpos).take N with
    | nil =>
      have hX : (files it.curr_p_id).drop it.fpos = [] := by
        rcases List.take_eq_nil_iff.1 hchunk with h | h
        · omega
        · exact h
      have hstream : readStream files it = filesFrom files it.pcount (it.curr_p_id + 1) := by
        rw [readStream, hX, List.nil_append]
      by_cases hpe : it.curr_p_id + 1 = it.pcount
      · rw [if_pos hpe]
        constructor
        · intro _
          exact ⟨_, rfl, rfl, rfl, hpe, rfl, rfl, rfl⟩
        · intro hne
          rw [hstream, filesFrom_of_ge _ _ _ (by omega)] at hne
          exact (hne rfl).elim
      · rw [if_neg hpe]
        by_cases hlt : it.curr_p_id + 1 < it.pcount
        · rw [if_pos hlt]
          set it1 : KVIter :=
            { it with
                curr_p_id := it.curr_p_id + 1, fileOpen := true, fpos := 0 } with hit1
          have hg1 : ReadGood files it1 := ⟨rfl, hlt, Nat.zero_le _⟩
          have hf1 : it1.pcount - it1.curr_p_id < fuel := by
            rw [hit1]
            dsimp
            omega
          have hs1 : readStream files it1 = readStream files it := by
            rw [hit1, readStream, hstream]
            dsimp
            rw [← filesFrom_succ _ _ _ hlt]
          obtain ⟨part1, part2⟩ := ih it1 hg1 hf1
          constructor
          · intro hs
            obtain ⟨it', he, h1, h2, h3, h4, h5, h6⟩ := part1 (by rw [hs1, hs])
            exact ⟨it', he, h1, h2, h3, h4, h5, h6⟩
          · intro hne
            obtain ⟨it', c, he, hgood, hc1, hc2, hc3, hs', hpos, hae, hpc, hwp⟩ :=
              part2 (by rw [hs1]; exact hne)
            refine ⟨it', c, he, hgood, hc1, hc2, ?_, ?_, hpos, hae, hpc, hwp⟩
            · rw [← hs1]
              exact hc3
            · rw [← hs1]
              exact hs'
        · exfalso
          have := hg.hcurr
          omega
    | cons kv0 crest =>
      have hXne : (files it.curr_p_id).drop it.fpos ≠ [] := by
        intro h
        rw [h] at hchunk
        simp at hchunk
      have hlenle : (kv0 :: crest).length ≤ ((files it.curr_p_id).drop it.fpos).length := by
        rw [← hchunk, List.length_take]
        exact Nat.min_le_right _ _
      have hlenN : (kv0 :: crest).length ≤ N := by
        rw [← hchunk, List.length_take]
        exact Nat.min_le_left _ _
      have hdroplen : ((files it.curr_p_id).drop it.fpos).length =
          (files it.curr_p_id).length - it.fpos := List.length_drop ..
      have h4 : (kv0 :: crest).length = crest.length + 1 := rfl
      constructor
      · intro hs
        rw [readStream, List.append_eq_nil] at hs
        exact (hXne hs.1).elim
      · intro _
        refine ⟨_, (kv0 :: crest).length, rfl, ⟨rfl, hg.hcurr, ?_⟩, ?_, hlenN, ?_, ?_,
          rfl, rfl, rfl, rfl⟩
        · dsimp
          have h3 := hg.hfpos
          omega
        · omega
        · rw [readStream]
          have h5 := List.length_append ((files it.curr_p_id).drop it.fpos)
            (filesFrom files it.pcount (it.curr_p_id + 1))
          omega
        · rw [readStream, readStream]
          dsimp
          rw [List.drop_append_of_le_length (by omega), ← List.drop_drop]

theorem read_readGood (files : Nat → List Pair) (N : Nat) (it : KVIter)
    (hg : ReadGood files it) :
    read files N it = readLoop files N (it.pcount + 1) it := by
  rw [read]
  simp [hg.fopen]

/-- The state of a begin iterator just after `read` has opened partition 0:
like `startedIter` but with the scalar read buffer still unallocated. -/
def startedRead (work_pref : String) (P : Nat) : KVIter :=
  ⟨work_pref, P, true, 0, 0, 0, false, false, [], 0, (0, 0)⟩

theorem read_beginIter (files : Nat → List Pair) (N : Nat) (work_pref : String)
    (P : Nat) (hP : 0 < P) :
    read files N (beginIter work_pref P) =
      readLoop files N (P + 1) (startedRead work_pref P) := by
  rw [read, beginIter, startedRead, set_file_handle]
  simp [hP]

theorem readGood_startedRead (files : Nat → List Pair) (work_pref : String)
    (P : Nat) (hP : 0 < P) : ReadGood files (startedRead work_pref P) :=
  ⟨rfl, hP, Nat.zero_le _⟩

theorem readStream_startedRead (files : Nat → List Pair) (work_pref : String)
    (P : Nat) (hP : 0 < P) :
    readStream files (startedRead work_pref P) = allPairs files P := by
  rw [readStream, startedRead, allPairs_eq_filesFrom, filesFrom_succ _ _ _ hP]
  rfl

/-- Behaviour of the repeated-read driver from a good iterator: the calls
return positive counts of at most `N` each, summing to the remaining stream
length, and the final (zero-returning) call leaves the iterator at end with
the file closed at partition id `pcount` and `pos` advanced by the whole
stream. -/
theorem readDriver_spec (files : Nat → List Pair) (N : Nat) (hN : 0 < N) :
    ∀ (fuel : Nat) (it : KVIter) (l : List Pair), ReadGood files it →
      readStream files it = l → l.length + 1 ≤ fuel →
      ∃ cs itF, readDriver files N fuel it = some (cs, itF) ∧
        cs.sum = l.length ∧ (∀ c ∈ cs, 0 < c ∧ c ≤ N) ∧
        itF.fileOpen = false ∧ itF.at_end = true ∧ itF.curr_p_id = it.pcount ∧
        itF.pos = it.pos + l.length ∧ itF.pcount = it.pcount := by
  intro fuel
  induction fuel with
  | zero => intro it l _ _ hf; omega
  | succ fuel ih =>
    intro it l hg hsl hf
    obtain ⟨part1, part2⟩ := readLoop_spec files N hN (it.pcount + 1) it hg (by omega)
    simp only [readDriver]
    rw [read_readGood files N it hg]
    rcases l with _ | ⟨kv, lrest⟩
    · obtain ⟨it1, he, h1, h2, h3, h4, h5, -⟩ := part1 hsl
      rw [he]
      refine ⟨[], it1, rfl, rfl, ?_, h1, h2, h3, ?_, h5⟩
      · intro c hc
        cases hc
      · simp [h4]
    · obtain ⟨it1, c, he, hg1, hc1, hc2, hc3, hs1, hpos1, -, hpc1, -⟩ :=
        part2 (by rw [hsl]; exact List.cons_ne_nil kv lrest)
      rw [he]
      dsimp only
      rw [if_neg (by omega)]
      rw [hsl] at hc3 hs1
      have hlen : (readStream files it1).length = (kv :: lrest).length - c := by
        rw [hs1, List.length_drop]
      obtain ⟨cs, itF, he2, hsum, hall, hf1, hf2, hf3, hf4, hf5⟩ :=
        ih it1 (readStream files it1) hg1 rfl (by rw [hlen]; omega)
      rw [he2]
      refine ⟨c :: cs, itF, rfl, ?_, ?_, hf1, hf2, by rw [hf3, hpc1], ?_, by rw [hf5, hpc1]⟩
      · rw [List.sum_cons, hsum, hlen]
        omega
      · intro x hx
        rcases List.mem_cons.1 hx with rfl | hx
        · exact ⟨hc1, hc2⟩
        · exact hall x hx
      · rw [hf4, hlen, hpos1]
        omega

/-- C6.  Batched read completeness: from a fresh begin iterator over a
collated collection, repeated `read(buf, N)` calls with `N > 0` return pair
counts that are each positive and at most `N` and sum to the collection's
total pair count, and the exhausting call closes the file, sets at-end (at
partition id `partition_count`) and returns 0, with `pos` equal to the
total pair count. -/
theorem read_batched_completeness (work_pref : String) (files : Nat → List Pair)
    (N : Nat) (hN : 0 < N) :
    ∃ cs itF, readAll files N work_pref partition_count = some (cs, itF) ∧
      cs.sum = totalPairs files partition_count ∧
      (∀ c ∈ cs, 0 < c ∧ c ≤ N) ∧
      itF.fileOpen = false ∧ itF.at_end = true ∧
      itF.curr_p_id = partition_count ∧
      itF.pos = totalPairs files partition_count := by
  have hP : 0 < partition_count := by
    rw [partition_count]
    norm_num
  have htot : totalPairs files partition_count = (allPairs files partition_count).length :=
    totalPairs_eq_length files partition_count
  have hgood := readGood_startedRead files work_pref partition_count hP
  obtain ⟨part1, part2⟩ :=
    readLoop_spec files N hN (partition_count + 1) (startedRead work_pref partition_count)
      hgood (by rw [startedRead]; dsimp; omega)
  have hstep : readAll files N work_pref partition_count =
      (match read files N (beginIter work_pref partition_count) with
        | none => none
        | some (it1, c) =>
          if c = 0 then some ([], it1)
          else
            match readDriver files N (totalPairs files partition_count + 1) it1 with
            | none => none
            | some (cs, itF) => some (c :: cs, itF)) := rfl
  rw [hstep, read_beginIter files N work_pref partition_count hP]
  cases hap : allPairs files partition_count with
  | nil =>
    obtain ⟨it1, he, h1, h2, h3, h4, h5, -⟩ :=
      part1 (by rw [readStream_startedRead files work_pref partition_count hP, hap])
    rw [he]
    refine ⟨[], it1, rfl, ?_, ?_, h1, h2, ?_, ?_⟩
    · rw [htot, hap]
      rfl
    · intro c hc
      cases hc
    · exact h3
    · rw [h4, htot, hap]
      rfl
  | cons kv lrest =>
    obtain ⟨it1, c, he, hg1, hc1, hc2, hc3, hs1, hpos1, -, hpc1, -⟩ :=
      part2 (by rw [readStream_startedRead files work_pref partition_count hP, hap]
                exact List.cons_ne_nil kv lrest)
    rw [he]
    dsimp only
    rw [if_neg (by omega)]
    rw [readStream_startedRead files work_pref partition_count hP] at hc3 hs1
    have hlen : (readStream files it1).length = totalPairs files partition_count - c := by
      rw [hs1, List.length_drop, htot]
    obtain ⟨cs, itF, he2, hsum, hall, hf1, hf2, hf3, hf4, hf5⟩ :=
      readDriver_spec files N hN (totalPairs files partition_count + 1) it1
        (readStream files it1) hg1 rfl (by rw [hlen]; omega)
    rw [he2]
    have hc4 : c ≤ totalPairs files partition_count := by
      rw [htot]
      exact hc3
    have h0 : (startedRead work_pref partition_count).pos = 0 := rfl
    refine ⟨c :: cs, itF, rfl, ?_, ?_, hf1, hf2, ?_, ?_⟩
    · rw [List.sum_cons, hsum, hlen]
      omega
    · intro x hx
      rcases List.mem_cons.1 hx with rfl | hx
      · exact ⟨hc1, hc2⟩
      · exact hall x hx
    · rw [hf3, hpc1]
      rfl
    · rw [hf4, hlen, hpos1, h0]
      omega

/-- Witness for C6 at a concrete input: two pairs in partition 3, batch
size 5. -/
theorem read_batched_completeness_witness :
    0 < 5 ∧
      ∃ cs itF, readAll (Function.update (fun _ => []) 3 [((3 : Nat), (1 : Nat)), (3, 2)]) 5
          "kvc" partition_count = some (cs, itF) ∧
        cs.sum = totalPairs (Function.update (fun _ => []) 3 [(3, 1), (3, 2)]) partition_count ∧
        (∀ c ∈ cs, 0 < c ∧ c ≤ 5) ∧
        itF.fileOpen = false ∧ itF.at_end = true ∧
        itF.curr_p_id = partition_count ∧
        itF.pos = totalPairs (Function.update (fun _ => []) 3 [(3, 1), (3, 2)]) partition_count :=
  ⟨by decide,
    read_batched_completeness "kvc" (Function.update (fun _ => []) 3 [(3, 1), (3, 2)]) 5
      (by decide)⟩

/-- The key sequence of a pair sequence. -/
def keysOf (l : List Pair) : List Nat := l.map Prod.fst

/-- Collapse every run of adjacent equal keys to a single key: the sequence
of run representatives, in order of first appearance of each run. -/
def dedupAdj : List Nat → List Nat
  | [] => []
  | [k] => [k]
  | k :: k2 :: l => if k = k2 then dedupAdj (k2 :: l) else k :: dedupAdj (k2 :: l)

/-- A key sequence is grouped when every key occurs in a single contiguous
run, i.e. when collapsing adjacent runs leaves no duplicate. -/
def Grouped (l : List Nat) : Prop := (dedupAdj l).Nodup

theorem dedupAdj_cons_dropWhile (k : Nat) (ks : List Nat) :
    dedupAdj (k :: ks) = k :: dedupAdj (ks.dropWhile (fun x => x == k)) := by
  induction ks with
  | nil => rfl
  | cons a ks ih =>
    by_cases ha : a = k
    · subst ha
      rw [show dedupAdj (a :: a :: ks) = dedupAdj (a :: ks) from by rw [dedupAdj, if_pos rfl],
        ih, List.dropWhile_cons_of_pos (by simp)]
    · rw [show dedupAdj (k :: a :: ks) = k :: dedupAdj (a :: ks) from by
        rw [dedupAdj, if_neg (Ne.symm ha)],
        List.dropWhile_cons_of_neg (by simp [ha])]

theorem mem_dedupAdj : ∀ (l : List Nat) (x : Nat), x ∈ dedupAdj l ↔ x ∈ l := by
  intro l
  induction l with
  | nil => intro x; rfl
  | cons k ks ih =>
    intro x
    cases ks with
    | nil => rfl
    | cons a ks2 =>
      rw [dedupAdj]
      by_cases ha : k = a
      · subst ha
        rw [if_pos rfl]
        constructor
        · intro h
          exact List.mem_cons_of_mem _ ((ih x).1 h)
        · intro h
          rcases List.mem_cons.1 h with rfl | h
          · exact (ih x).2 (List.mem_cons_self _ _)
          · exact (ih x).2 h
      · rw [if_neg ha]
        constructor
        · intro h
          rcases List.mem_cons.1 h with rfl | h
          · exact List.mem_cons_self _ _
          · exact List.mem_cons_of_mem _ ((ih x).1 h)
        · intro h
          rcases List.mem_cons.1 h with rfl | h
          · exact List.mem_cons_self _ _
          · exact List.mem_cons_of_mem _ ((ih x).2 h)

theorem dedupAdj_sublist : ∀ l : List Nat, (dedupAdj l).Sublist l := by
  intro l
  induction l with
  | nil => exact List.Sublist.refl _
  | cons k ks ih =>
    cases ks with
    | nil => exact List.Sublist.refl _
    | cons a ks2 =>
      rw [dedupAdj]
      by_cases ha : k = a
      · rw [if_pos ha]
        exact ih.cons _
      · rw [if_neg ha]
        exact ih.cons₂ _

/-- Adjacent entries of the run-collapsed sequence always differ. -/
theorem dedupAdj_chain : ∀ l : List Nat, (dedupAdj l).Chain' (· ≠ ·) := by
  intro l
  induction l with
  | nil => exact List.chain'_nil
  | cons k ks ih =>
    cases ks with
    | nil => simp [dedupAdj]
    | cons a ks2 =>
      rw [dedupAdj]
      by_cases ha : k = a
      · rw [if_pos ha]
        exact ih
      · rw [if_neg ha]
        refine List.chain'_cons'.2 ⟨?_, ih⟩
        intro y hy
        rw [dedupAdj_cons_dropWhile, List.head?_cons, Option.mem_some_iff] at hy
        subst hy
        exact ha

theorem dedupAdj_append : ∀ (A B : List Nat) (hA : A ≠ []) (hB : B ≠ []),
    A.getLast hA ≠ B.head hB →
    dedupAdj (A ++ B) = dedupAdj A ++ dedupAdj B := by
  intro A
  induction A with
  | nil => intro B hA hB h; exact (hA rfl).elim
  | cons a A ih =>
    intro B hA hB h
    cases A with
    | nil =>
      cases B with
      | nil => exact (hB rfl).elim
      | cons b B2 =>
        have hab : a ≠ b := by simpa using h
        have e1 : dedupAdj (a :: b :: B2) = a :: dedupAdj (b :: B2) := by
          rw [dedupAdj, if_neg hab]
        rw [List.singleton_append, e1]
        rfl
    | cons a2 A2 =>
      have h2 : (a2 :: A2).getLast (by simp) ≠ B.head hB := by
        rwa [List.getLast_cons (by simp)] at h
      by_cases ha : a = a2
      · have e1 : dedupAdj (a :: a2 :: (A2 ++ B)) = dedupAdj (a2 :: (A2 ++ B)) := by
          rw [dedupAdj, if_pos ha]
        have e2 : dedupAdj (a :: a2 :: A2) = dedupAdj (a2 :: A2) := by
          rw [dedupAdj, if_pos ha]
        rw [List.cons_append, List.cons_append, e1, ← List.cons_append, e2,
          ih B (by simp) hB h2]
      · have e1 : dedupAdj (a :: a2 :: (A2 ++ B)) = a :: dedupAdj (a2 :: (A2 ++ B)) := by
          rw [dedupAdj, if_neg ha]
        have e2 : dedupAdj (a :: a2 :: A2) = a :: dedupAdj (a2 :: A2) := by
          rw [dedupAdj, if_neg ha]
        rw [List.cons_append, List.cons_append, e1, ← List.cons_append,
          ih B (by simp) hB h2, e2, List.cons_append]

/-- A concatenation of individually grouped key sequences with pairwise
disjoint key sets is grouped. -/
theorem grouped_flatten (Ls : List (List Nat))
    (hmem : ∀ l ∈ Ls, Grouped l)
    (hdisj : Ls.Pairwise (fun a b => ∀ x ∈ a, x ∉ b)) :
    Grouped Ls.flatten := by
  induction Ls with
  | nil => simp [Grouped, dedupAdj]
  | cons A rest ih =>
    rw [List.flatten_cons]
    have hgA : Grouped A := hmem A (List.mem_cons_self _ _)
    have hgR : Grouped rest.flatten :=
      ih (fun l hl => hmem l (List.mem_cons_of_mem _ hl)) (List.Pairwise.of_cons hdisj)
    have hdAB : ∀ x ∈ A, x ∉ rest.flatten := by
      intro x hx hmemf
      obtain ⟨l, hl, hxl⟩ := List.mem_flatten.1 hmemf
      exact (List.rel_of_pairwise_cons hdisj hl) x hx hxl
    rcases eq_or_ne A [] with rfl | hAne
    · simpa using hgR
    rcases eq_or_ne rest.flatten [] with hfR | hfRne
    · rw [hfR, List.append_nil]
      exact hgA
    · have hlast : A.getLast hAne ≠ rest.flatten.head hfRne := by
        intro he
        exact hdAB _ (List.getLast_mem hAne) (he ▸ List.head_mem hfRne)
      rw [Grouped, dedupAdj_append A rest.flatten hAne hfRne hlast]
      exact List.Nodup.append hgA hgR
        (fun x hx hx2 => hdAB x ((mem_dedupAdj A x).1 hx) ((mem_dedupAdj _ x).1 hx2))

/-- A non-decreasing key sequence is grouped. -/
theorem grouped_of_sorted : ∀ ks : List Nat, ks.Pairwise (· ≤ ·) → Grouped ks := by
  intro ks
  induction ks with
  | nil => intro _; simp [Grouped, dedupAdj]
  | cons k ks ih =>
    intro hs
    cases ks with
    | nil => simp [Grouped, dedupAdj]
    | cons a l =>
      have hka : k ≤ a := (List.rel_of_pairwise_cons hs) (List.mem_cons_self _ _)
      have htail := List.Pairwise.of_cons hs
      rw [Grouped, dedupAdj]
      by_cases hke : k = a
      · rw [if_pos hke]
        exact ih htail
      · rw [if_neg hke]
        refine List.nodup_cons.2 ⟨?_, ih htail⟩
        intro hmem
        have hmem2 : k ∈ a :: l := (mem_dedupAdj _ k).1 hmem
        rcases List.mem_cons.1 hmem2 with rfl | hmem3
        · exact hke rfl
        · have := (List.rel_of_pairwise_cons htail) hmem3
          omega

theorem filesFrom_length_succ_le (files : Nat → List Pair) (P p : Nat) :
    (filesFrom files P (p + 1)).length ≤ (filesFrom files P p).length := by
  by_cases hp : p < P
  · rw [filesFrom_succ _ _ _ hp, List.length_append]
    omega
  · rw [filesFrom_of_ge _ _ _ (by omega), filesFrom_of_ge _ _ _ (by omega)]

theorem filesFrom_length_le (files : Nat → List Pair) (P : Nat) :
    ∀ p, (filesFrom files P p).length ≤ (filesFrom files P 0).length := by
  intro p
  induction p with
  | zero => exact Nat.le_refl _
  | succ p ih => exact Nat.le_trans (filesFrom_length_succ_le files P p) ih

/-- The remaining scalar stream of a good iterator is no longer than the
whole collection. -/
theorem iterStream_length_le (files : Nat → List Pair) (it : KVIter)
    (hg : GoodIter files it) :
    (iterStream files it).length ≤ totalPairs files it.pcount := by
  rw [iterStream, totalPairs_eq_length, allPairs_eq_filesFrom, List.length_append,
    List.length_append]
  have h2 := List.length_drop it.buf_idx it.bufData
  have h3 := List.length_drop it.fpos (files it.curr_p_id)
  have h4 : (filesFrom files it.pcount it.curr_p_id).length =
      (files it.curr_p_id).length + (filesFrom files it.pcount (it.curr_p_id + 1)).length := by
    rw [filesFrom_succ _ _ _ hg.hcurr, List.length_append]
  have h5 := filesFrom_length_le files it.pcount it.curr_p_id
  have h6 := hg.hbuf
  have h7 := hg.hblen
  have h8 := hg.hfpos
  omega

theorem advance_goodIter (files : Nat → List Pair) (B : Nat) (it : KVIter)
    (hg : GoodIter files it) :
    advance files B it = advLoop files B (it.pcount + 1) it := by
  rw [advance]
  simp [hg.balloc]

/-- Behaviour of the skip loop of `advance_key_block` on a good iterator:
it consumes the current element and the run of following elements whose key
equals `key`, landing on the first differing element, or exhausting the
collection (file closed, at-end) when no differing element remains. -/
theorem akbLoop_spec (files : Nat → List Pair) (B : Nat) (hB : 0 < B) :
    ∀ (l : List Pair) (it : KVIter) (key : Nat) (fuel : Nat),
      GoodIter files it → iterStream files it = l → l.length + 2 ≤ fuel →
      (it.elem.1 ≠ key → akbLoop files B fuel key it = some it) ∧
      (it.elem.1 = key →
        (l.dropWhile (fun kv => kv.1 == key) = [] →
          ∃ it', akbLoop files B fuel key it = some it' ∧
            it'.fileOpen = false ∧ it'.at_end = true ∧ it'.pcount = it.pcount) ∧
        (∀ e2 l2, l.dropWhile (fun kv => kv.1 == key) = e2 :: l2 →
          ∃ it', akbLoop files B fuel key it = some it' ∧ GoodIter files it' ∧
            iterStream files it' = l2 ∧ it'.elem = e2 ∧ it'.at_end = it.at_end ∧
            it'.pcount = it.pcount ∧ it'.bufAlloc = it.bufAlloc)) := by
  intro l
  induction l with
  | nil =>
    intro it key fuel hg hst hf
    obtain ⟨f, rfl⟩ : ∃ f, fuel = f + 1 := ⟨fuel - 1, by omega⟩
    obtain ⟨f2, rfl⟩ : ∃ f2, f = f2 + 1 := ⟨f - 1, by omega⟩
    constructor
    · intro hne
      simp only [akbLoop]
      rw [if_neg (by simp [hg.fopen, hne])]
    · intro heq
      obtain ⟨part1, -⟩ :=
        advLoop_spec files B hB (it.pcount + 1) it hg (by omega)
      obtain ⟨itT, he, h1, h2, h3, h4, h5, h6, h7, h8, h9, h10⟩ := part1 hst
      constructor
      · intro _
        refine ⟨itT, ?_, h1, h2, h6⟩
        simp only [akbLoop]
        rw [if_pos (by simp [hg.fopen, heq]), advance_goodIter files B it hg, he]
        simp only [akbLoop]
        rw [if_neg (by simp [h1])]
      · intro e2 l2 hdw
        simp at hdw
    | cons kv l ih =>
    intro it key fuel hg hst hf
    obtain ⟨f, rfl⟩ : ∃ f, fuel = f + 1 := ⟨fuel - 1, by omega⟩
    constructor
    · intro hne
      simp only [akbLoop]
      rw [if_neg (by simp [hg.fopen, hne])]
    · intro heq
      obtain ⟨-, part2⟩ :=
        advLoop_spec files B hB (it.pcount + 1) it hg (by omega)
      obtain ⟨it1, he, hg1, hs1, helem, -, hae1, hpc1, -, hba1⟩ := part2 kv l hst
      have hstep : akbLoop files B (f + 1) key it = akbLoop files B f key it1 := by
        simp only [akbLoop]
        rw [if_pos (by simp [hg.fopen, heq]), advance_goodIter files B it hg, he]
      have hih := ih it1 key f hg1 hs1 (by
        simp only [List.length_cons] at hf
        omega)
      by_cases hkv : kv.1 = key
      · have hdw1 : (kv :: l).dropWhile (fun kv => kv.1 == key) =
            l.dropWhile (fun kv => kv.1 == key) :=
          List.dropWhile_cons_of_pos (by simp [hkv])
        constructor
        · intro hdw
          rw [hdw1] at hdw
          obtain ⟨it', he', h1, h2, h3⟩ := (hih.2 (by rw [helem]; exact hkv)).1 hdw
          exact ⟨it', by rw [hstep]; exact he', h1, h2, by rw [h3, hpc1]⟩
        · intro e2 l2 hdw
          rw [hdw1] at hdw
          obtain ⟨it', he', h1, h2, h3, h4, h5, h6⟩ :=
            (hih.2 (by rw [helem]; exact hkv)).2 e2 l2 hdw
          exact ⟨it', by rw [hstep]; exact he', h1, h2, h3, by rw [h4, hae1],
            by rw [h5, hpc1], by rw [h6, hba1]⟩
      · have hdw1 : (kv :: l).dropWhile (fun kv => kv.1 == key) = kv :: l :=
          List.dropWhile_cons_of_neg (by simp [hkv])
        constructor
        · intro hdw
          rw [hdw1] at hdw
          cases hdw
        · intro e2 l2 hdw
          rw [hdw1] at hdw
          injection hdw with hdw2 hdw3
          subst hdw2
          subst hdw3
          refine ⟨it1, ?_, hg1, hs1, helem, hae1, hpc1, hba1⟩
          rw [hstep]
          exact hih.1 (by rw [helem]; exact hkv)

theorem star_goodIter (files : Nat → List Pair) (B : Nat) (it : KVIter)
    (hg : GoodIter files it) : star files B it = some (it.elem.1, it) := by
  rw [star]
  simp [hg.balloc]

theorem advance_key_block_goodIter (files : Nat → List Pair) (B : Nat) (it : KVIter)
    (hg : GoodIter files it) :
    advance_key_block files B it =
      akbLoop files B (totalPairs files it.pcount + 2) it.elem.1 it := by
  rw [advance_key_block]
  simp [hg.balloc]

/-- Moving dropWhile on a key predicate through the key projection. -/
theorem keysOf_dropWhile (l : List Pair) (k : Nat) :
    (keysOf l).dropWhile (fun x => x == k) =
      keysOf (l.dropWhile (fun kv => kv.1 == k)) := by
  rw [keysOf, keysOf, List.dropWhile_map]
  rfl

/-- The canonical scalar loop from a good loop-top state (current element
loaded, stream remaining) yields exactly the run heads of the remaining
keys, current element first. -/
theorem scalarLoop_spec (files : Nat → List Pair) (B : Nat) (hB : 0 < B)
    (w : String) (P : Nat) :
    ∀ (n : Nat) (l : List Pair) (it : KVIter), l.length < n →
      GoodIter files it → iterStream files it = l → it.at_end = false →
      ∀ fuel, l.length + 2 ≤ fuel →
      scalarLoop files B (endIter w P) fuel it =
        some (dedupAdj (it.elem.1 :: keysOf l)) := by
  intro n
  induction n with
  | zero => intro l it h; omega
  | succ n ihn =>
    intro l it hln hg hst hae fuel hf
    obtain ⟨f, rfl⟩ : ∃ f, fuel = f + 1 := ⟨fuel - 1, by omega⟩
    simp only [scalarLoop]
    rw [if_neg (by simp [iterEq, endIter, hg.fopen]), star_goodIter files B it hg]
    dsimp only
    rw [advance_key_block_goodIter files B it hg]
    have hlen := iterStream_length_le files it hg
    rw [hst] at hlen
    have hspec := (akbLoop_spec files B hB l it it.elem.1
      (totalPairs files it.pcount + 2) hg hst (by omega)).2 rfl
    cases hdw : l.dropWhile (fun kv => kv.1 == it.elem.1) with
    | nil =>
      obtain ⟨it2, he2, h1, h2, -⟩ := hspec.1 hdw
      rw [he2]
      dsimp only
      obtain ⟨f2, rfl⟩ : ∃ f2, f = f2 + 1 := ⟨f - 1, by omega⟩
      simp only [scalarLoop]
      rw [if_pos (by simp [iterEq, endIter, h1, h2]),
        dedupAdj_cons_dropWhile, keysOf_dropWhile, hdw]
      rfl
    | cons e2 l2 =>
      obtain ⟨it2, he2, hg2, hs2, helem2, hae2, -, -⟩ := hspec.2 e2 l2 hdw
      rw [he2]
      dsimp only
      have hdl : (e2 :: l2).length ≤ l.length := by
        rw [← hdw]
        exact (List.dropWhile_sublist _).length_le
      rw [List.length_cons] at hdl
      rw [ihn l2 it2 (by omega) hg2 hs2 (by rw [hae2, hae]) f (by omega)]
      dsimp only
      have hrhs : dedupAdj (it.elem.1 :: keysOf l) =
          it.elem.1 :: dedupAdj (e2.1 :: keysOf l2) := by
        rw [dedupAdj_cons_dropWhile, keysOf_dropWhile, hdw]
        rfl
      rw [helem2, hrhs]

/-- In a collated collection — every partition file sorted in the natural
pair order, every pair hash-consistent with its partition — the key
sequence of the concatenation of partitions is grouped: each key occupies a
single contiguous run. -/
theorem grouped_allPairs (H : Nat → Nat) (files : Nat → List Pair) (P : Nat)
    (hsorted : ∀ p, p < P → (files p).Pairwise
      (fun a b : Pair => a.1 < b.1 ∨ (a.1 = b.1 ∧ a.2 ≤ b.2)))
    (hpart : ∀ p, p < P → ∀ kv ∈ files p, get_partition_id H kv.1 = p) :
    Grouped (keysOf (allPairs files P)) := by
  have hmapflat : keysOf (allPairs files P) =
      ((List.range P).map (fun p => keysOf (files p))).flatten := by
    rw [keysOf, allPairs, List.map_flatten, List.map_map]
    rfl
  rw [hmapflat]
  apply grouped_flatten
  · intro l hl
    obtain ⟨p, hp, rfl⟩ := List.mem_map.1 hl
    have hpP : p < P := List.mem_range.1 hp
    apply grouped_of_sorted
    rw [keysOf, List.pairwise_map]
    refine (hsorted p hpP).imp ?_
    intro a b hab
    rcases hab with h | ⟨h, -⟩ <;> omega
  · rw [List.pairwise_map]
    refine List.Pairwise.imp_of_mem ?_ (List.pairwise_lt_range P)
    intro p q hp hq hpq x hxp hxq
    have hpP : p < P := List.mem_range.1 hp
    have hqP : q < P := List.mem_range.1 hq
    obtain ⟨kvp, hkvp, rfl⟩ := List.mem_map.1 hxp
    obtain ⟨kvq, hkvq, hkk⟩ := List.mem_map.1 hxq
    have h1 := hpart p hpP kvp hkvp
    have h2 := hpart q hqP kvq hkvq
    rw [hkk] at h2
    omega

/-- C4 amended.  Key-grouped scalar iteration over a NON-EMPTY collated
collection: the canonical traversal from begin to end yields exactly the
run heads of the concatenated key sequence, i.e. each distinct key exactly
once, in the order keys appear in the concatenation of partitions
0..P-1 (a sublist of that key sequence); consecutive yielded keys differ,
and the number of ++it steps — one per yielded key — equals the number of
distinct keys. -/
theorem scalar_iteration (H : Nat → Nat) (work_pref : String)
    (files : Nat → List Pair) (B : Nat) (hB : 0 < B)
    (hsorted : ∀ p, p < partition_count → (files p).Pairwise
      (fun a b : Pair => a.1 < b.1 ∨ (a.1 = b.1 ∧ a.2 ≤ b.2)))
    (hpart : ∀ p, p < partition_count → ∀ kv ∈ files p, get_partition_id H kv.1 = p)
    (hne : allPairs files partition_count ≠ []) :
    scalarIterKeys files B work_pref partition_count =
        some (dedupAdj (keysOf (allPairs files partition_count))) ∧
      (dedupAdj (keysOf (allPairs files partition_count))).Nodup ∧
      (dedupAdj (keysOf (allPairs files partition_count))).Sublist
        (keysOf (allPairs files partition_count)) ∧
      (dedupAdj (keysOf (allPairs files partition_count))).Chain' (· ≠ ·) ∧
      (dedupAdj (keysOf (allPairs files partition_count))).length =
        (keysOf (allPairs files partition_count)).toFinset.card := by
  have hP : 0 < partition_count := by
    rw [partition_count]
    norm_num
  have hgrp := grouped_allPairs H files partition_count hsorted hpart
  refine ⟨?_, hgrp, dedupAdj_sublist _, dedupAdj_chain _, ?_⟩
  · -- the traversal equation
    obtain ⟨hd, tl, hht⟩ : ∃ hd tl, allPairs files partition_count = hd :: tl := by
      rcases hap : allPairs files partition_count with _ | ⟨hd, tl⟩
      · exact (hne hap).elim
      · exact ⟨hd, tl, rfl⟩
    have hgood := goodIter_startedIter files work_pref partition_count hP
    have hfuel : (startedIter work_pref partition_count).pcount -
        (startedIter work_pref partition_count).curr_p_id < partition_count + 1 := by
      rw [startedIter]
      dsimp
      omega
    obtain ⟨-, part2⟩ :=
      advLoop_spec files B hB (partition_count + 1) (startedIter work_pref partition_count)
        hgood hfuel
    obtain ⟨it1, he1, hg1, hs1, helem1, -, hae1, hpc1, -, hba1⟩ :=
      part2 hd tl (by rw [iterStream_startedIter files work_pref partition_count hP, hht])
    have htl : tl.length + 1 = totalPairs files partition_count := by
      rw [totalPairs_eq_length, hht, List.length_cons]
    rw [scalarIterKeys]
    obtain ⟨f, hfe⟩ : ∃ f, totalPairs files partition_count + 2 = f + 1 :=
      ⟨totalPairs files partition_count + 1, rfl⟩
    rw [hfe]
    simp only [scalarLoop]
    rw [if_neg (by simp [iterEq, beginIter, endIter]), star,
      if_pos (by rw [beginIter]; rfl),
      advance_beginIter files B work_pref partition_count hP, he1]
    simp only [Option.map_some']
    rw [advance_key_block_goodIter files B it1 hg1]
    have hlen1 := iterStream_length_le files it1 hg1
    rw [hs1] at hlen1
    have hspec := (akbLoop_spec files B hB tl it1 it1.elem.1
      (totalPairs files it1.pcount + 2) hg1 hs1 (by omega)).2 rfl
    have hrhs : dedupAdj (keysOf (allPairs files partition_count)) =
        dedupAdj (it1.elem.1 :: keysOf tl) := by
      rw [hht, helem1]
      rfl
    cases hdw : tl.dropWhile (fun kv => kv.1 == it1.elem.1) with
    | nil =>
      obtain ⟨it2, he2, h1, h2, -⟩ := hspec.1 hdw
      rw [he2]
      dsimp only
      obtain ⟨f2, hfe2⟩ : ∃ f2, f = f2 + 1 := ⟨f - 1, by omega⟩
      rw [hfe2]
      simp only [scalarLoop]
      rw [if_pos (by simp [iterEq, endIter, h1, h2]), hrhs,
        dedupAdj_cons_dropWhile, keysOf_dropWhile, hdw]
      rfl
    | cons e2 l2 =>
      obtain ⟨it2, he2, hg2, hs2, helem2, hae2, -, -⟩ := hspec.2 e2 l2 hdw
      rw [he2]
      dsimp only
      have hdl : (e2 :: l2).length ≤ tl.length := by
        rw [← hdw]
        exact (List.dropWhile_sublist _).length_le
      rw [List.length_cons] at hdl
      rw [scalarLoop_spec files B hB work_pref partition_count (l2.length + 1) l2 it2
        (by omega) hg2 hs2 (by rw [hae2, hae1]; rfl) f (by omega)]
      dsimp only
      have hstep : dedupAdj (it1.elem.1 :: keysOf tl) =
          it1.elem.1 :: dedupAdj (e2.1 :: keysOf l2) := by
        rw [dedupAdj_cons_dropWhile, keysOf_dropWhile, hdw]
        rfl
      rw [helem2, hrhs, hstep]
  · -- distinct-key count
    have hfs : (dedupAdj (keysOf (allPairs files partition_count))).toFinset =
        (keysOf (allPairs files partition_count)).toFinset := by
      apply Finset.ext
      intro x
      rw [List.mem_toFinset, List.mem_toFinset, mem_dedupAdj]
    rw [← hfs, List.toFinset_card_of_nodup hgrp]

/-- C4 as stated fails on the code for the EMPTY collated collection: the
canonical traversal still executes one loop iteration, because fresh begin
and end iterators compare unequal, so it yields the default-initialized
key 0 and performs one ++it step although the collection holds no distinct
key at all. -/
theorem scalar_iteration_empty_counterexample :
    scalarIterKeys (fun _ => []) 327680 "kvc" partition_count = some [0] ∧
      totalPairs (fun _ => []) partition_count = 0 :=
  ⟨by decide, by decide⟩

/-- A concrete collated collection for the C4 witness: two pairs with key 5
sitting, sorted, in partition file 5 of 512, consistent with the identity
hasher. -/
def exampleFiles : Nat → List Pair := Function.update (fun _ => []) 5 [(5, 1), (5, 2)]

/-- Witness for the amended C4 at a concrete input. -/
theorem scalar_iteration_witness :
    (0 < 4 ∧
      (∀ p, p < partition_count → (exampleFiles p).Pairwise
        (fun a b : Pair => a.1 < b.1 ∨ (a.1 = b.1 ∧ a.2 ≤ b.2))) ∧
      (∀ p, p < partition_count → ∀ kv ∈ exampleFiles p,
        get_partition_id (fun k => k) kv.1 = p) ∧
      allPairs exampleFiles partition_count ≠ []) ∧
      (scalarIterKeys exampleFiles 4 "kvc" partition_count =
          some (dedupAdj (keysOf (allPairs exampleFiles partition_count))) ∧
        (dedupAdj (keysOf (allPairs exampleFiles partition_count))).Nodup ∧
        (dedupAdj (keysOf (allPairs exampleFiles partition_count))).Sublist
          (keysOf (allPairs exampleFiles partition_count)) ∧
        (dedupAdj (keysOf (allPairs exampleFiles partition_count))).Chain' (· ≠ ·) ∧
        (dedupAdj (keysOf (allPairs exampleFiles partition_count))).length =
          (keysOf (allPairs exampleFiles partition_count)).toFinset.card) :=
  ⟨⟨by decide, by decide, by decide, by decide⟩,
    scalar_iteration (fun k => k) "kvc" exampleFiles 4 (by decide) (by decide) (by decide)
      (by decide)⟩

end KVCollator
